import Mathlib

/-!
Verification of the mg terminal redisplay engine (`display.c`) and the SGR
mouse parser (`mouse.c`).  The C sources are shallowly embedded: each C
function becomes a Lean function over explicit state; machine integers are
modelled as `Nat`/`Int` with explicit wrapping where overflow can matter;
fixed-width row buffers become lists whose length is the column count.
-/

namespace Mg

/-! ## Basic constants (from display.c and ttydef.h usage sites)

Color classes `CNONE`/`CTEXT`/`CMODE`/`CSELECT` come from the terminal
driver headers that are not part of the provided sources; only their
distinctness is ever used by display.c, so they are modelled as distinct
numerals. -/

def CNONE : Int := 0
/-- Flag bit `VFCHG`: line changed (display.c line 40). -/
def VFCHG : Nat := 1
/-- Flag bit `VFHBAD`: hash and cost are bad (display.c line 41). -/
def VFHBAD : Nat := 2
structure VtState where
  text : List Nat
  col : Nat
  deriving Repr, DecidableEq

/-- Modelled from the spec: `ntabstop(col, tabw)` is provided by a header
outside the given sources; the spec says a tab at column C with tab width W
"advances the column to the next multiple of W", i.e. the next tab stop
strictly after `col`. -/
def ntabstop (col tabw : Nat) : Nat := ((col + tabw) / tabw) * tabw

/-- Modelled from the spec: `ISCTRL(c)` is a macro outside the given
sources; the spec classifies a control byte as `< 0x20` (tab is tested
before this in `vtputc` itself). -/
def ISCTRL (c : Nat) : Bool := c < 32

/-- Modelled from the spec: `CCHR(c)` (the "folded letter" for a control
byte, e.g. 1 becomes A) is a macro outside the given sources. -/
def CCHR (c : Nat) : Nat := c ^^^ 64

/-- The C-locale `isprint`: printable ASCII. -/
def isprintB (c : Nat) : Bool := 32 ≤ c ∧ c ≤ 126

/-- One plain character put, exactly the two non-expanding arms of
`vtputc`: at or past the right margin the last column is overwritten with
`'$'` and the column does not move; otherwise the character is stored and
the column advances. -/
def put1 (ncol c : Nat) (st : VtState) : VtState :=
  if ncol ≤ st.col then { st with text := st.text.set (ncol - 1) 36 }
  else { text := st.text.set st.col c, col := st.col + 1 }

/-- The tab-expansion do/while loop of `vtputc`:
`do { vtputc(' ', wp); } while (vtcol < ncol && vtcol < target);`.
A space is printable, so the recursive `vtputc(' ')` is `put1`. -/
def tabLoop (ncol target : Nat) (st : VtState) : VtState :=
  if (put1 ncol 32 st).col < ncol ∧ (put1 ncol 32 st).col < target then
    tabLoop ncol target (put1 ncol 32 st)
  else put1 ncol 32 st
termination_by target - st.col
decreasing_by
  rename_i h
  by_cases hc : ncol ≤ st.col
  · exfalso
    simp only [put1, if_pos hc] at h
    omega
  · simp only [put1, if_neg hc] at h ⊢
    omega

/-- Octal digits of `c`, most significant first (the `%o` rendering used by
`snprintf(bf, sizeof(bf), "\\%o", c)`). -/
def octDigits (c : Nat) : List Nat :=
  if h : c < 8 then [48 + c]
  else octDigits (c / 8) ++ [48 + c % 8]
termination_by c
decreasing_by omega

/-- The function `vtputc` (display.c lines 381-408).  The recursive calls for the
control arm (`'^'` then the folded letter) and the octal-escape arm all
pass printable characters, so they reduce to `put1`. -/
def vtputc (ncol tabw c0 : Nat) (st : VtState) : VtState :=
  let c := c0 % 256
  if ncol ≤ st.col then { st with text := st.text.set (ncol - 1) 36 }
  else if c = 9 then tabLoop ncol (ntabstop st.col tabw) st
  else if ISCTRL c then put1 ncol (CCHR c) (put1 ncol 94 st)
  else if isprintB c then put1 ncol c st
  else (92 :: octDigits c).foldl (fun s ch => put1 ncol ch s) st

/-! ### Facts about tab expansion (claim C3) -/

theorem put1_col (ncol c : Nat) (st : VtState) :
    (put1 ncol c st).col = if ncol ≤ st.col then st.col else st.col + 1 := by
  simp only [put1]; split <;> rfl

theorem put1_text_len (ncol c : Nat) (st : VtState) :
    (put1 ncol c st).text.length = st.text.length := by
  simp only [put1]; split <;> simp

theorem tabLoop_col (ncol target : Nat) (st : VtState) (h : st.col < ncol) :
    (tabLoop ncol target st).col = min (max target (st.col + 1)) ncol := by
  have H : ∀ m st, st.col < ncol → target - st.col ≤ m →
      (tabLoop ncol target st).col = min (max target (st.col + 1)) ncol := by
    intro m
    induction m with
    | zero =>
      intro st h hm
      rw [tabLoop]
      have hcol : (put1 ncol 32 st).col = st.col + 1 := by
        rw [put1_col]; simp [Nat.not_le.mpr h]
      split
      · next hcond => rw [hcol] at hcond; omega
      · rw [hcol]; omega
    | succ m ih =>
      intro st h hm
      rw [tabLoop]
      have hcol : (put1 ncol 32 st).col = st.col + 1 := by
        rw [put1_col]; simp [Nat.not_le.mpr h]
      split
      · next hcond =>
        obtain ⟨h1, h2⟩ := hcond
        rw [hcol] at h1 h2
        rw [ih (put1 ncol 32 st) (by omega) (by omega), hcol]
        omega
      · next hcond =>
        rw [hcol] at hcond ⊢
        rw [Classical.not_and_iff_or_not_not] at hcond
        rcases hcond with h1 | h2 <;> omega
  exact H (target - st.col) st h (le_refl _)

theorem tabLoop_text_len (ncol target : Nat) (st : VtState) :
    (tabLoop ncol target st).text.length = st.text.length := by
  have H : ∀ m st, target - st.col ≤ m →
      (tabLoop ncol target st).text.length = st.text.length := by
    intro m
    induction m with
    | zero =>
      intro st hm
      rw [tabLoop]
      split
      · next hcond =>
        exfalso
        obtain ⟨h1, h2⟩ := hcond
        rw [put1_col] at h1 h2
        by_cases hc : ncol ≤ st.col <;> simp [hc] at h1 h2 <;> omega
      · exact put1_text_len ..
    | succ m ih =>
      intro st hm
      rw [tabLoop]
      split
      · next hcond =>
        obtain ⟨h1, h2⟩ := hcond
        have hlt : st.col < ncol := by
          rw [put1_col] at h1 h2
          split at h1
          · omega
          · next hx => exact Nat.not_le.mp hx
        have hcol : (put1 ncol 32 st).col = st.col + 1 := by
          rw [put1_col]; simp [Nat.not_le.mpr hlt]
        rw [ih (put1 ncol 32 st) (by omega), put1_text_len]
      · exact put1_text_len ..
  exact H (target - st.col) st (le_refl _)

/-- Below the starting column the text is untouched by the tab loop
(entered, as in `vtputc`, with the column inside the row). -/
theorem tabLoop_text_lower (ncol target : Nat) (st : VtState) (k : Nat)
    (hk : k < st.col) (hcl : st.col < ncol) :
    (tabLoop ncol target st).text[k]? = st.text[k]? := by
  have H : ∀ m st, k < st.col → st.col < ncol → target - st.col ≤ m →
      (tabLoop ncol target st).text[k]? = st.text[k]? := by
    intro m
    induction m with
    | zero =>
      intro st hk hcl hm
      rw [tabLoop]
      split
      · next hcond =>
        exfalso
        obtain ⟨h1, h2⟩ := hcond
        rw [put1_col] at h1 h2
        by_cases hc : ncol ≤ st.col <;> simp [hc] at h1 h2 <;> omega
      · simp only [put1, if_neg (Nat.not_le.mpr hcl)]
        rw [List.getElem?_set_ne (by omega)]
    | succ m ih =>
      intro st hk hcl hm
      rw [tabLoop]
      have hput : (put1 ncol 32 st).text[k]? = st.text[k]? := by
        simp only [put1, if_neg (Nat.not_le.mpr hcl)]
        rw [List.getElem?_set_ne (by omega)]
      have hcol : (put1 ncol 32 st).col = st.col + 1 := by
        rw [put1_col]; simp [Nat.not_le.mpr hcl]
      split
      · next hcond =>
        obtain ⟨h1, h2⟩ := hcond
        rw [hcol] at h1 h2
        rw [ih (put1 ncol 32 st) (by omega) (by omega) (by omega), hput]
      · exact hput
  exact H (target - st.col) st hk hcl (le_refl _)

/-- Writing a tab at a column strictly below the row width advances the
column to the next tab stop, clamped to the row width. -/
theorem ntabstop_lt (col tabw : Nat) (ht : 0 < tabw) : col < ntabstop col tabw := by
  unfold ntabstop
  rw [Nat.add_div_right _ ht]
  exact (Nat.div_lt_iff_lt_mul ht).mp (Nat.lt_succ_self _)

/-- C3: for every starting column `C < ncol` and tab width `W > 0`, a tab
written through `vtputc` advances the virtual column to
`min (next stop after C) ncol`; the column strictly increases (so it never
decreases and at least one blank is written — position `C` now holds a
blank), and it never ends past the row width. -/
theorem vtputc_tab_expansion (ncol tabw : Nat) (st : VtState)
    (hc : st.col < ncol) (ht : 0 < tabw) (hlen : st.text.length = ncol) :
    (vtputc ncol tabw 9 st).col = min (ntabstop st.col tabw) ncol ∧
    st.col < (vtputc ncol tabw 9 st).col ∧
    (vtputc ncol tabw 9 st).col ≤ ncol ∧
    (vtputc ncol tabw 9 st).text[st.col]? = some 32 := by
  have hne : ¬ ncol ≤ st.col := Nat.not_le.mpr hc
  have hvt : vtputc ncol tabw 9 st = tabLoop ncol (ntabstop st.col tabw) st := by
    unfold vtputc
    simp [hne]
  have hstop := ntabstop_lt st.col tabw ht
  have hmax : max (ntabstop st.col tabw) (st.col + 1) = ntabstop st.col tabw := by
    omega
  have hcolres : (vtputc ncol tabw 9 st).col = min (ntabstop st.col tabw) ncol := by
    rw [hvt, tabLoop_col ncol _ st hc, hmax]
  refine ⟨hcolres, by omega, by omega, ?_⟩
  rw [hvt, tabLoop]
  have hput1 : (put1 ncol 32 st) = { text := st.text.set st.col 32, col := st.col + 1 } := by
    simp [put1, hne]
  have hget : (st.text.set st.col 32)[st.col]? = some 32 :=
    List.getElem?_set_eq_of_lt 32 (by omega)
  split
  · next hcond =>
    rw [hput1] at hcond ⊢
    rw [tabLoop_text_lower _ _ _ st.col (by simp) (by exact hcond.1)]
    exact hget
  · rw [hput1]
    exact hget

/-- C3 witness: tab at column 3, width 8, row width 5 (next stop 8 exceeds
the width; the loop stops at the margin). -/
theorem vtputc_tab_expansion_at_3_8_5 :
    ((3 : Nat) < 5 ∧ (0 : Nat) < 8 ∧ ([32, 32, 32, 32, 32] : List Nat).length = 5) ∧
    ((vtputc 5 8 9 ⟨[32, 32, 32, 32, 32], 3⟩).col = min (ntabstop 3 8) 5 ∧
     3 < (vtputc 5 8 9 ⟨[32, 32, 32, 32, 32], 3⟩).col ∧
     (vtputc 5 8 9 ⟨[32, 32, 32, 32, 32], 3⟩).col ≤ 5 ∧
     (vtputc 5 8 9 ⟨[32, 32, 32, 32, 32], 3⟩).text[3]? = some 32) :=
  ⟨⟨by norm_num, by norm_num, by norm_num⟩,
   vtputc_tab_expansion 5 8 ⟨[32, 32, 32, 32, 32], 3⟩ (by norm_num) (by norm_num)
     (by norm_num)⟩

/-! ## Windows and selection membership (`in_selection`, display.c lines 107-150)

The window structure carries the fields of `struct mgwin` that display.c
reads: redraw flags, mark presence and mark/dot document positions, window
geometry, the buffer's lines with the indices of the top and dot lines,
and the mode-line inputs. -/

structure Win where
  rflag : Nat
  markSet : Bool
  markline : Nat
  marko : Nat
  dotline : Nat
  doto : Nat
  toprow : Nat
  ntrows : Nat
  buffer : List (List Nat)
  topIdx : Nat
  dotIdx : Nat
  frame : Int
  tabw : Nat
  bname : List Nat
  bfReadonly : Bool
  bfChg : Bool
  modeNames : List (List Nat)
  deriving Repr, DecidableEq, Inhabited

/-- The three range tests of `in_selection` after normalization: line in
range, on the start line the offset is at or after the start offset, on
the end line it is strictly before the end offset. -/
def selTest (start_line start_off end_line end_off line_num offset : Nat) : Bool :=
  if line_num < start_line ∨ end_line < line_num then false
  else if line_num = start_line ∧ offset < start_off then false
  else if line_num = end_line ∧ end_off ≤ offset then false
  else true

/-- The body of `in_selection` once the mark is known to be set: the
same-position early return, the normalization comparison, and the range
tests. -/
def inSel (ml mo dl dk l o : Nat) : Bool :=
  if ml = dl ∧ mo = dk then false
  else if ml < dl ∨ (ml = dl ∧ mo < dk) then selTest ml mo dl dk l o
  else selTest dl dk ml mo l o

/-- The function `in_selection` (display.c lines 107-150). -/
def in_selection (wp : Win) (line_num offset : Nat) : Bool :=
  if !wp.markSet then false
  else inSel wp.markline wp.marko wp.dotline wp.doto line_num offset

/-- Strict document order on (line, offset) positions. -/
def docLt (p q : Nat × Nat) : Prop := p.1 < q.1 ∨ (p.1 = q.1 ∧ p.2 < q.2)

/-- Reflexive document order on (line, offset) positions. -/
def docLe (p q : Nat × Nat) : Prop := p.1 < q.1 ∨ (p.1 = q.1 ∧ p.2 ≤ q.2)

/-- The same window with mark and cursor (dot) positions exchanged. -/
def swapMarkDot (wp : Win) : Win :=
  { wp with markline := wp.dotline, marko := wp.doto,
            dotline := wp.markline, doto := wp.marko }

/-- The earlier of mark and dot in document order. -/
def selStart (wp : Win) : Nat × Nat :=
  if wp.markline < wp.dotline ∨ (wp.markline = wp.dotline ∧ wp.marko < wp.doto) then
    (wp.markline, wp.marko)
  else (wp.dotline, wp.doto)

/-- The later of mark and dot in document order. -/
def selEnd (wp : Win) : Nat × Nat :=
  if wp.markline < wp.dotline ∨ (wp.markline = wp.dotline ∧ wp.marko < wp.doto) then
    (wp.dotline, wp.doto)
  else (wp.markline, wp.marko)

theorem selTest_iff (sl so el eo l o : Nat) :
    (selTest sl so el eo l o = true ↔
      (docLe (sl, so) (l, o) ∧ docLt (l, o) (el, eo))) := by
  unfold selTest docLe docLt
  split_ifs <;> simp <;> omega

theorem inSel_symm (ml mo dl dk l o : Nat) :
    inSel dl dk ml mo l o = inSel ml mo dl dk l o := by
  unfold inSel
  split_ifs <;> first | rfl | (exfalso; omega)

theorem inSel_iff (ml mo dl dk l o : Nat) :
    inSel ml mo dl dk l o = true ↔
      (docLe (if ml < dl ∨ (ml = dl ∧ mo < dk) then (ml, mo) else (dl, dk)) (l, o) ∧
       docLt (l, o) (if ml < dl ∨ (ml = dl ∧ mo < dk) then (dl, dk) else (ml, mo))) := by
  unfold inSel
  by_cases heq : ml = dl ∧ mo = dk
  · obtain ⟨e1, e2⟩ := heq
    subst e1; subst e2
    have hcond : ¬ (ml < ml ∨ (ml = ml ∧ mo < mo)) := by omega
    simp only [if_pos (And.intro rfl rfl), if_neg hcond]
    simp [docLe, docLt]
    omega
  · simp only [if_neg heq]
    by_cases hlt : ml < dl ∨ (ml = dl ∧ mo < dk)
    · simp only [if_pos hlt]
      exact selTest_iff ml mo dl dk l o
    · simp only [if_neg hlt]
      exact selTest_iff dl dk ml mo l o

/-- C4: with the mark set, `in_selection` holds exactly on the half-open
interval [start, end) in document order, where start is the earlier of
mark and dot, and the result is unchanged when mark and dot are swapped. -/
theorem in_selection_interval (wp : Win) (l o : Nat) (hm : wp.markSet = true) :
    (in_selection wp l o = true ↔
      (docLe (selStart wp) (l, o) ∧ docLt (l, o) (selEnd wp))) ∧
    in_selection (swapMarkDot wp) l o = in_selection wp l o := by
  have h1 : in_selection wp l o = inSel wp.markline wp.marko wp.dotline wp.doto l o := by
    unfold in_selection
    simp [hm]
  have h2 : in_selection (swapMarkDot wp) l o =
      inSel wp.dotline wp.doto wp.markline wp.marko l o := by
    unfold in_selection swapMarkDot
    simp [hm]
  constructor
  · rw [h1, inSel_iff]
    unfold selStart selEnd
    exact Iff.rfl
  · rw [h1, h2, inSel_symm]

/-- Concrete window used by the C4 witness: mark (2,3), dot (5,1). -/
def wpSelWitness : Win :=
  { rflag := 0, markSet := true, markline := 2, marko := 3,
    dotline := 5, doto := 1, toprow := 0, ntrows := 5, buffer := [],
    topIdx := 0, dotIdx := 0, frame := 0, tabw := 8, bname := [],
    bfReadonly := false, bfChg := false, modeNames := [] }

/-- C4 witness at mark (2,3), dot (5,1), querying (3,7). -/
theorem in_selection_interval_at_2_3_5_1 :
    (in_selection wpSelWitness 3 7 = true ↔
      (docLe (selStart wpSelWitness) (3, 7) ∧ docLt (3, 7) (selEnd wpSelWitness))) ∧
    in_selection (swapMarkDot wpSelWitness) 3 7 = in_selection wpSelWitness 3 7 :=
  in_selection_interval wpSelWitness 3 7 rfl

/-! ## Screen rows and the lazy hash / cost estimator
(`struct video`, display.c lines 31-38; `hash`, lines 1046-1066) -/

structure Video where
  v_hash : Int
  v_flag : Nat
  v_color : Int
  v_cost : Int
  v_text : List Nat
  v_attr : List Nat
  deriving Repr, DecidableEq, Inhabited

/-- Signed interpretation of a text byte (`char` is signed when promoted
to `int` in the hash accumulation). -/
def toSChar (b : Nat) : Int := if b % 256 < 128 then (b % 256 : Int) else (b % 256 : Int) - 256

/-- Two's-complement wrap of a C `int`. -/
def wrap32 (x : Int) : Int := (x + 2 ^ 31) % 2 ^ 32 - 2 ^ 31

/-- Two's-complement wrap of a C `short` (`v_hash` is a `short`). -/
def wrap16 (x : Int) : Int := (x + 2 ^ 15) % 2 ^ 16 - 2 ^ 15

/-- One step of the rolling hash: `n = (n << 5) + n + *s`. -/
def hashStep (n : Int) (c : Nat) : Int := wrap32 (32 * n + n + toSChar c)

/-- The backward scan of `hash`: starting from the last column, the number
of columns up to and including the last non-blank, computed on the
reversed text. -/
def sigLenRev : List Nat → Nat
  | [] => 0
  | c :: rest => if c ≠ 32 then rest.length + 1 else sigLenRev rest

/-- Number of significant bytes of a row (columns up to and including the
last non-blank). -/
def sigLen (l : List Nat) : Nat := sigLenRev l.reverse

/-- The function `hash` (display.c lines 1046-1066): recompute the hash code and the
redisplay cost of a row when (and only when) its `VFHBAD` flag is set.
The second loop folds the significant bytes from the last one down to
column 0, so it is a fold over the reversed significant prefix.
`v_flag &= ~VFHBAD` on a C `int` clears bit 1: with flags stored in a
32-bit word this is `&&& 0xFFFFFFFD`. -/
def hash (tceeol : Int) (vp : Video) : Video :=
  if vp.v_flag &&& VFHBAD ≠ 0 then
    let i := sigLen vp.v_text
    let n : Int := min ((vp.v_text.length : Int) - (i : Int)) tceeol
    { vp with
      v_cost := (i : Int) + n,
      v_hash := wrap16 (((vp.v_text.take i).reverse).foldl hashStep 0),
      v_flag := vp.v_flag &&& 4294967293 }
  else vp

/-- The backward blank scan measures exactly the trailing-blank run. -/
theorem sigLenRev_eq (l : List Nat) :
    sigLenRev l = l.length - (l.takeWhile (fun c => c == 32)).length := by
  induction l with
  | nil => rfl
  | cons c rest ih =>
    by_cases hc : c = 32
    · subst hc
      simp [sigLenRev, List.takeWhile, ih]
    · have hcb : (c == 32) = false := by simp [hc]
      have hle : (rest.takeWhile (fun c => c == 32)).length ≤ rest.length :=
        (List.takeWhile_sublist _).length_le
      simp [sigLenRev, hc, List.takeWhile_cons, hcb]

theorem sigLen_eq (l : List Nat) :
    sigLen l = l.length - (l.reverse.takeWhile (fun c => c == 32)).length := by
  unfold sigLen
  rw [sigLenRev_eq]
  simp

/-- The trailing-blank run of a row, read from the last column backward. -/
def trailBlanks (l : List Nat) : Nat := (l.reverse.takeWhile (fun c => c == 32)).length

theorem trailBlanks_le (l : List Nat) : trailBlanks l ≤ l.length := by
  have h1 : (l.reverse.takeWhile (fun c => c == 32)).length ≤ l.reverse.length :=
    (List.takeWhile_sublist _).length_le
  unfold trailBlanks
  simpa using h1

/-- C2: when the row's hash-stale flag (`VFHBAD`) is set, `hash` sets the
cached cost to (significant bytes) + min(trailing blanks, erase cost),
where the significant bytes are the columns up to and including the last
non-blank; it folds those bytes into the rolling hash, clears the stale
flag and touches nothing else; when the flag is clear it changes
nothing. -/
theorem hash_lazy_cost (tceeol : Int) (vp : Video) :
    (vp.v_flag &&& VFHBAD ≠ 0 →
      (hash tceeol vp).v_cost =
        ((vp.v_text.length - trailBlanks vp.v_text : Nat) : Int) +
          min (trailBlanks vp.v_text : Int) tceeol ∧
      (hash tceeol vp).v_hash =
        wrap16 (((vp.v_text.take (vp.v_text.length - trailBlanks vp.v_text)).reverse).foldl
          hashStep 0) ∧
      (hash tceeol vp).v_flag &&& VFHBAD = 0 ∧
      (hash tceeol vp).v_text = vp.v_text ∧
      (hash tceeol vp).v_attr = vp.v_attr ∧
      (hash tceeol vp).v_color = vp.v_color) ∧
    (vp.v_flag &&& VFHBAD = 0 → hash tceeol vp = vp) := by
  have htb : trailBlanks vp.v_text ≤ vp.v_text.length := trailBlanks_le _
  have hsig : sigLen vp.v_text = vp.v_text.length - trailBlanks vp.v_text :=
    sigLen_eq vp.v_text
  constructor
  · intro hbad
    have hh : hash tceeol vp =
        { vp with
          v_cost := (sigLen vp.v_text : Int) +
            min ((vp.v_text.length : Int) - (sigLen vp.v_text : Int)) tceeol,
          v_hash := wrap16 (((vp.v_text.take (sigLen vp.v_text)).reverse).foldl hashStep 0),
          v_flag := vp.v_flag &&& 4294967293 } := by
      rw [hash, if_pos hbad]
    rw [hh]
    refine ⟨?_, ?_, ?_, rfl, rfl, rfl⟩
    · show (sigLen vp.v_text : Int) +
          min ((vp.v_text.length : Int) - (sigLen vp.v_text : Int)) tceeol = _
      rw [hsig]
      have hcast : ((vp.v_text.length : Int) -
          ((vp.v_text.length - trailBlanks vp.v_text : Nat) : Int)) =
          ((trailBlanks vp.v_text : Nat) : Int) := by
        omega
      rw [hcast]
    · show wrap16 (((vp.v_text.take (sigLen vp.v_text)).reverse).foldl hashStep 0) = _
      rw [hsig]
    · show vp.v_flag &&& 4294967293 &&& VFHBAD = 0
      rw [Nat.land_assoc]
      have hz : (4294967293 &&& 2 : Nat) = 0 := by decide
      simp [VFHBAD, hz]
  · intro hgood
    simp [hash, hgood]

/-- Concrete stale row used by the C2 witness: text "a b␣␣". -/
def vpHashWitness : Video :=
  { v_hash := 0, v_flag := 3, v_color := 1, v_cost := 0,
    v_text := [97, 32, 98, 32, 32], v_attr := [0, 0, 0, 0, 0] }

/-- C2 witness: the row "a b␣␣" with a stale hash and erase cost 1. -/
theorem hash_lazy_cost_at_ab :
    (hash 1 vpHashWitness).v_cost =
      ((vpHashWitness.v_text.length - trailBlanks vpHashWitness.v_text : Nat) : Int) +
        min (trailBlanks vpHashWitness.v_text : Int) 1 ∧
    (hash 1 vpHashWitness).v_hash =
      wrap16 (((vpHashWitness.v_text.take
        (vpHashWitness.v_text.length - trailBlanks vpHashWitness.v_text)).reverse).foldl
        hashStep 0) ∧
    (hash 1 vpHashWitness).v_flag &&& VFHBAD = 0 ∧
    (hash 1 vpHashWitness).v_text = vpHashWitness.v_text ∧
    (hash 1 vpHashWitness).v_attr = vpHashWitness.v_attr ∧
    (hash 1 vpHashWitness).v_color = vpHashWitness.v_color :=
  (hash_lazy_cost 1 vpHashWitness).1 (by decide)

/-! ## Committing a row to the physical screen
(`ucopy`, display.c lines 769-779) -/

/-- The function `ucopy` (display.c lines 769-779): clear the change flag on the
virtual row, then copy flag word, hash, cost, color and `ncol` bytes of
text and attributes into the physical row.  `v_flag &= ~VFCHG` clears
bit 0: `&&& 0xFFFFFFFE`. -/
def ucopy (ncol : Nat) (vvp pvp : Video) : Video × Video :=
  let vvp' := { vvp with v_flag := vvp.v_flag &&& 4294967294 }
  (vvp',
   { pvp with
      v_flag := vvp'.v_flag,
      v_hash := vvp'.v_hash,
      v_cost := vvp'.v_cost,
      v_color := vvp'.v_color,
      v_text := vvp'.v_text.take ncol ++ pvp.v_text.drop ncol,
      v_attr := vvp'.v_attr.take ncol ++ pvp.v_attr.drop ncol })

/-- C5: `ucopy` makes the physical row equal to its virtual counterpart in
text, attributes, color, hash and cost, and leaves the virtual row's
changed flag cleared (the physical flag word matching it). -/
theorem ucopy_sync (ncol : Nat) (vvp pvp : Video)
    (hvt : vvp.v_text.length = ncol) (hva : vvp.v_attr.length = ncol)
    (hpt : pvp.v_text.length = ncol) (hpa : pvp.v_attr.length = ncol) :
    (ucopy ncol vvp pvp).2.v_text = (ucopy ncol vvp pvp).1.v_text ∧
    (ucopy ncol vvp pvp).2.v_attr = (ucopy ncol vvp pvp).1.v_attr ∧
    (ucopy ncol vvp pvp).2.v_color = (ucopy ncol vvp pvp).1.v_color ∧
    (ucopy ncol vvp pvp).2.v_hash = (ucopy ncol vvp pvp).1.v_hash ∧
    (ucopy ncol vvp pvp).2.v_cost = (ucopy ncol vvp pvp).1.v_cost ∧
    (ucopy ncol vvp pvp).1.v_flag &&& VFCHG = 0 ∧
    (ucopy ncol vvp pvp).2.v_flag = (ucopy ncol vvp pvp).1.v_flag ∧
    (ucopy ncol vvp pvp).1.v_text = vvp.v_text ∧
    (ucopy ncol vvp pvp).1.v_attr = vvp.v_attr ∧
    (ucopy ncol vvp pvp).1.v_color = vvp.v_color ∧
    (ucopy ncol vvp pvp).1.v_hash = vvp.v_hash ∧
    (ucopy ncol vvp pvp).1.v_cost = vvp.v_cost := by
  have htake : vvp.v_text.take ncol = vvp.v_text := by
    rw [List.take_of_length_le (by omega)]
  have htake' : vvp.v_attr.take ncol = vvp.v_attr := by
    rw [List.take_of_length_le (by omega)]
  have hdrop : pvp.v_text.drop ncol = [] := by
    rw [List.drop_eq_nil_of_le (by omega)]
  have hdrop' : pvp.v_attr.drop ncol = [] := by
    rw [List.drop_eq_nil_of_le (by omega)]
  have hflag : vvp.v_flag &&& 4294967294 &&& VFCHG = 0 := by
    rw [Nat.land_assoc]
    have hz : (4294967294 &&& 1 : Nat) = 0 := by decide
    simp [VFCHG, hz]
  simp [ucopy, htake, htake', hdrop, hdrop', hflag]

/-- Concrete virtual row for the C5 witness. -/
def vvpUcopyWitness : Video :=
  { v_hash := 7, v_flag := 5, v_color := 1, v_cost := 3,
    v_text := [97, 98], v_attr := [1, 0] }

/-- Concrete physical row for the C5 witness. -/
def pvpUcopyWitness : Video :=
  { v_hash := 0, v_flag := 0, v_color := 2, v_cost := 0,
    v_text := [32, 32], v_attr := [0, 0] }

/-- C5 witness on a concrete pair of 2-column rows. -/
theorem ucopy_sync_at_2 :
    let vvp : Video := vvpUcopyWitness
    let pvp : Video := pvpUcopyWitness
    (ucopy 2 vvp pvp).2.v_text = (ucopy 2 vvp pvp).1.v_text ∧
    (ucopy 2 vvp pvp).2.v_attr = (ucopy 2 vvp pvp).1.v_attr ∧
    (ucopy 2 vvp pvp).2.v_color = (ucopy 2 vvp pvp).1.v_color ∧
    (ucopy 2 vvp pvp).2.v_hash = (ucopy 2 vvp pvp).1.v_hash ∧
    (ucopy 2 vvp pvp).2.v_cost = (ucopy 2 vvp pvp).1.v_cost ∧
    (ucopy 2 vvp pvp).1.v_flag &&& VFCHG = 0 ∧
    (ucopy 2 vvp pvp).2.v_flag = (ucopy 2 vvp pvp).1.v_flag ∧
    (ucopy 2 vvp pvp).1.v_text = [97, 98] ∧
    (ucopy 2 vvp pvp).1.v_attr = [1, 0] ∧
    (ucopy 2 vvp pvp).1.v_color = 1 ∧
    (ucopy 2 vvp pvp).1.v_hash = 7 ∧
    (ucopy 2 vvp pvp).1.v_cost = 3 :=
  ucopy_sync 2 _ _ rfl rfl rfl rfl

/-! ## SGR mouse parsing (`mouse_parse`, mouse.c lines 108-164)

The terminal input stream consumed by `ttgetc` is a list of bytes; the
parser returns `none` ("not parsed") where the C function returns 0. -/

inductive MouseType where
  | press
  | release
  | drag
  deriving Repr, DecidableEq

structure MouseEvent where
  me_type : MouseType
  me_button : Nat
  me_x : Int
  me_y : Int
  deriving Repr, DecidableEq

def isDigit (c : Nat) : Bool := 48 ≤ c ∧ c ≤ 57

/-- The `while ((c = ttgetc()) >= '0' && c <= '9') v = v*10 + (c-'0');`
loops of `mouse_parse`: consume digits into an accumulator and return the
value, the first non-digit and the remaining input. -/
def readNum (acc : Nat) : List Nat → Option (Nat × Nat × List Nat)
  | [] => none
  | c :: rest =>
      if isDigit c then readNum (acc * 10 + (c - 48)) rest else some (acc, c, rest)

/-- Event construction at the end of `mouse_parse` (mouse.c lines 143-163):
0-based coordinate conversion, then drag (bit 5 of the button, cleared in
the report: `& ~32` on a 32-bit int is `&&& 0xFFFFFFDF`), release or
press. -/
def mkMouseEvent (button x y : Nat) (released : Bool) : MouseEvent :=
  if button &&& 32 ≠ 0 then
    { me_type := MouseType.drag, me_button := button &&& 4294967263,
      me_x := (x : Int) - 1, me_y := (y : Int) - 1 }
  else if released then
    { me_type := MouseType.release, me_button := button,
      me_x := (x : Int) - 1, me_y := (y : Int) - 1 }
  else
    { me_type := MouseType.press, me_button := button,
      me_x := (x : Int) - 1, me_y := (y : Int) - 1 }

/-- The function `mouse_parse` (mouse.c lines 108-164). -/
def mouse_parse (startc : Nat) (input : List Nat) : Option MouseEvent :=
  if startc ≠ 60 then none
  else
    match readNum 0 input with
    | none => none
    | some (button, c1, rest1) =>
      if c1 ≠ 59 then none
      else
        match readNum 0 rest1 with
        | none => none
        | some (x, c2, rest2) =>
          if c2 ≠ 59 then none
          else
            match readNum 0 rest2 with
            | none => none
            | some (y, c3, _) =>
              if c3 = 109 then some (mkMouseEvent button x y true)
              else if c3 ≠ 77 then none
              else some (mkMouseEvent button x y false)

/-- Decimal digit rendering with structural fuel (any fuel at least the
value itself yields the full digit string). -/
def decDigitsGo : Nat → Nat → List Nat
  | 0, n => [48 + n]
  | fuel + 1, n => if n < 10 then [48 + n] else decDigitsGo fuel (n / 10) ++ [48 + n % 10]

/-- Decimal digit string of `n`, most significant first (the encoding a
terminal uses for the `B`, `X`, `Y` fields). -/
def decDigits (n : Nat) : List Nat := decDigitsGo n n

theorem readNum_decDigitsGo (fuel : Nat) :
    ∀ n acc l, n ≤ fuel →
      readNum acc (decDigitsGo fuel n ++ l) =
        readNum (acc * 10 ^ (decDigitsGo fuel n).length + n) l := by
  induction fuel with
  | zero =>
    intro n acc l hn
    have hn0 : n = 0 := by omega
    subst hn0
    rw [decDigitsGo]
    simp only [List.cons_append, List.nil_append, List.length_cons, List.length_nil]
    rw [readNum]
    have hd : isDigit (48 + 0) = true := by decide
    rw [if_pos hd]
    norm_num
  | succ fuel ih =>
    intro n acc l hn
    by_cases h : n < 10
    · rw [decDigitsGo, if_pos h]
      simp only [List.cons_append, List.nil_append, List.length_cons, List.length_nil]
      rw [readNum]
      have hd : isDigit (48 + n) = true := by
        unfold isDigit
        simp only [decide_eq_true_eq, Bool.and_eq_true]
        omega
      rw [if_pos hd]
      have : acc * 10 + (48 + n - 48) = acc * 10 ^ (0 + 1) + n := by
        simp
      rw [this]
    · rw [decDigitsGo, if_neg h]
      rw [List.append_assoc]
      rw [ih (n / 10) acc _ (by omega)]
      simp only [List.singleton_append]
      rw [readNum]
      have hd : isDigit (48 + n % 10) = true := by
        unfold isDigit
        simp only [decide_eq_true_eq, Bool.and_eq_true]
        omega
      rw [if_pos hd]
      have hlen : (decDigitsGo fuel (n / 10) ++ [48 + n % 10]).length =
          (decDigitsGo fuel (n / 10)).length + 1 := by
        simp
      rw [hlen]
      have key : (acc * 10 ^ (decDigitsGo fuel (n / 10)).length + n / 10) * 10 +
          (48 + n % 10 - 48) =
          acc * 10 ^ ((decDigitsGo fuel (n / 10)).length + 1) + n := by
        have e0 : 48 + n % 10 - 48 = n % 10 := by omega
        have e1 : (acc * 10 ^ (decDigitsGo fuel (n / 10)).length + n / 10) * 10 + n % 10 =
            acc * (10 ^ (decDigitsGo fuel (n / 10)).length * 10) + (n / 10 * 10 + n % 10) := by
          ring
        have e2 : n / 10 * 10 + n % 10 = n := by omega
        rw [e0, e1, e2, ← pow_succ]
      rw [key]

theorem readNum_decDigits (n : Nat) (acc : Nat) (l : List Nat) :
    readNum acc (decDigits n ++ l) =
      readNum (acc * 10 ^ (decDigits n).length + n) l :=
  readNum_decDigitsGo n n acc l (le_refl n)

theorem readNum_complete (n c : Nat) (rest : List Nat) (hc : isDigit c = false) :
    readNum 0 (decDigits n ++ c :: rest) = some (n, c, rest) := by
  rw [readNum_decDigits, readNum]
  rw [if_neg (by simp [hc])]
  simp

theorem land32_eq (B : Nat) : B &&& 32 = if B.testBit 5 = true then 32 else 0 := by
  have h5 : (32 : Nat) = 2 ^ 5 := by norm_num
  apply Nat.eq_of_testBit_eq
  intro j
  rw [Nat.testBit_land]
  by_cases hb : B.testBit 5 = true
  · rw [if_pos hb]
    by_cases hj : j = 5
    · subst hj
      simp [hb]
    · rw [h5, Nat.testBit_two_pow_of_ne (fun h => hj h.symm)]
      simp
  · rw [if_neg hb]
    rw [Nat.zero_testBit]
    by_cases hj : j = 5
    · subst hj
      simp only [Bool.not_eq_true] at hb
      rw [hb]
      simp
    · rw [h5, Nat.testBit_two_pow_of_ne (fun h => hj h.symm)]
      simp

theorem mask32_testBit (i : Nat) :
    (4294967263 : Nat).testBit i = (decide (i < 32) && !decide (i = 5)) := by
  have hm : (4294967263 : Nat) = 4294967295 ^^^ 32 := by decide
  have h1 : (4294967295 : Nat) = 2 ^ 32 - 1 := by norm_num
  have h5 : (32 : Nat) = 2 ^ 5 := by norm_num
  rw [hm, Nat.testBit_xor, h1, Nat.testBit_two_pow_sub_one]
  by_cases hj : i = 5
  · subst hj
    rw [h5, Nat.testBit_two_pow_self]
    simp
  · rw [h5, Nat.testBit_two_pow_of_ne (fun h => hj h.symm)]
    by_cases h32 : i < 32 <;> simp [h32, hj]

theorem land_not32_testBit (B i : Nat) (hB : B < 2 ^ 32) (hi : i ≠ 5) :
    (B &&& 4294967263).testBit i = B.testBit i := by
  rw [Nat.testBit_land, mask32_testBit]
  by_cases h32 : i < 32
  · simp [h32, hi]
  · have hb : B.testBit i = false :=
      Nat.testBit_lt_two_pow (lt_of_lt_of_le hB (Nat.pow_le_pow_right (by norm_num) (by omega)))
    simp [h32, hb]

theorem land_not32_bit5 (B : Nat) : (B &&& 4294967263).testBit 5 = false := by
  rw [Nat.testBit_land, mask32_testBit]
  simp

/-- C8: a well-formed SGR sequence `< B ; X ; Y` followed by `M` or `m`
parses to an event with 0-based coordinates `X-1`, `Y-1`; with bit 5 of
`B` set the event is a drag whose button is `B` with bit 5 cleared
(other bits unchanged); otherwise the button is `B` and the terminator
selects release (`m`) or press (`M`). -/
theorem mouse_parse_sgr (B X Y term : Nat) (rest : List Nat)
    (hB : B < 2 ^ 32) (hterm : term = 77 ∨ term = 109) :
    ∃ ev, mouse_parse 60
        (decDigits B ++ 59 :: (decDigits X ++ 59 :: (decDigits Y ++ term :: rest))) =
        some ev ∧
      ev.me_x = (X : Int) - 1 ∧ ev.me_y = (Y : Int) - 1 ∧
      (B.testBit 5 = true →
        ev.me_type = MouseType.drag ∧ ev.me_button.testBit 5 = false ∧
        ∀ i, i ≠ 5 → ev.me_button.testBit i = B.testBit i) ∧
      (B.testBit 5 = false →
        ev.me_button = B ∧
        (term = 109 → ev.me_type = MouseType.release) ∧
        (term = 77 → ev.me_type = MouseType.press)) := by
  have hsemi : isDigit 59 = false := by decide
  have htermd : isDigit term = false := by
    rcases hterm with h | h <;> subst h <;> decide
  refine ⟨mkMouseEvent B X Y (term = 109), ?_, ?_, ?_, ?_, ?_⟩
  · unfold mouse_parse
    rw [if_neg (by norm_num)]
    rw [readNum_complete B 59 _ hsemi]
    simp only
    rw [if_neg (by norm_num)]
    rw [readNum_complete X 59 _ hsemi]
    simp only
    rw [if_neg (by norm_num)]
    rw [readNum_complete Y term _ htermd]
    simp only
    rcases hterm with h | h
    · subst h
      rw [if_neg (by norm_num), if_neg (by norm_num)]
      simp
    · subst h
      rw [if_pos rfl]
      simp
  · unfold mkMouseEvent
    split_ifs <;> rfl
  · unfold mkMouseEvent
    split_ifs <;> rfl
  · intro hb5
    have hne : B &&& 32 ≠ 0 := by
      rw [land32_eq, if_pos hb5]
      norm_num
    unfold mkMouseEvent
    rw [if_pos hne]
    exact ⟨rfl, land_not32_bit5 B, fun i hi => land_not32_testBit B i hB hi⟩
  · intro hb5
    have hz : ¬ (B &&& 32 ≠ 0) := by
      rw [land32_eq, hb5]
      simp
    unfold mkMouseEvent
    rw [if_neg hz]
    refine ⟨?_, ?_, ?_⟩
    · split_ifs <;> rfl
    · intro h
      subst h
      simp
    · intro h
      subst h
      simp

/-- C8 witness: `< 0 ; 11 ; 6 M` (press of button 0 at column 10, row 5),
together with the concrete decodings of the spec example for `M` and
`m`. -/
theorem mouse_parse_sgr_at_0_11_6 :
    (∃ ev, mouse_parse 60
        (decDigits 0 ++ 59 :: (decDigits 11 ++ 59 :: (decDigits 6 ++ 77 :: []))) =
        some ev ∧
      ev.me_x = (11 : Int) - 1 ∧ ev.me_y = (6 : Int) - 1 ∧
      ((0 : Nat).testBit 5 = true →
        ev.me_type = MouseType.drag ∧ ev.me_button.testBit 5 = false ∧
        ∀ i, i ≠ 5 → ev.me_button.testBit i = (0 : Nat).testBit i) ∧
      ((0 : Nat).testBit 5 = false →
        ev.me_button = 0 ∧
        ((77 : Nat) = 109 → ev.me_type = MouseType.release) ∧
        ((77 : Nat) = 77 → ev.me_type = MouseType.press))) ∧
    mouse_parse 60 [48, 59, 49, 49, 59, 54, 77] =
      some { me_type := MouseType.press, me_button := 0, me_x := 10, me_y := 5 } ∧
    mouse_parse 60 [48, 59, 49, 49, 59, 54, 109] =
      some { me_type := MouseType.release, me_button := 0, me_x := 10, me_y := 5 } :=
  ⟨mouse_parse_sgr 0 11 6 77 [] (by norm_num) (Or.inl rfl), by decide, by decide⟩

/-! ## The dynamic-programming cost matrix
(`struct score` and `setscores`, display.c lines 49-53 and 1094-1167)

`setscores` fills a `size+1` by `size+1` matrix over a band of rows.  The
inputs it reads are the two cost constants `tcinsl`/`tcdell`, the cached
redraw cost of virtual band row `j` (`(*vp)->v_cost`, here `vcost j`) and
whether physical band row `i` differs from virtual band row `j` in color
or hash (`(*pp)->v_color != (*vp)->v_color || (*pp)->v_hash != (*vp)->v_hash`,
here `diff i j`).  The linear `score` array with stride `nrow` is modelled
as a function from (i, j) pairs: `sp - nrow` is cell (i-1, j), `sp - 1` is
(i, j-1) and `sp - nrow - 1` is (i-1, j-1). -/

structure Score where
  s_itrace : Nat
  s_jtrace : Nat
  s_cost : Int
  deriving Repr, DecidableEq

def writeCell (m : Nat × Nat → Score) (i j : Nat) (s : Score) : Nat × Nat → Score :=
  fun p => if p = (i, j) then s else m p

/-- One cell of the main double loop of `setscores` (lines 1137-1160),
with the three candidates evaluated in source order: delete carried from
(i-1, j) (`tcdell` not added in the last column), then insert carried from
(i, j-1) plus the row's redraw cost (`tcinsl` not added in the last row)
replacing only if strictly cheaper, then match/redraw carried from
(i-1, j-1) plus the redraw cost only on a color/hash mismatch, replacing
only if strictly cheaper. -/
def cellStep (size : Nat) (tcinsl tcdell : Int) (vcost : Nat → Int)
    (diff : Nat → Nat → Bool) (up left diag : Score) (i j : Nat) : Score :=
  let best0 : Score := ⟨i - 1, j, up.s_cost + if j ≠ size then tcdell else 0⟩
  let insCost : Int := left.s_cost + vcost j + (if i ≠ size then tcinsl else 0)
  let best1 : Score := if insCost < best0.s_cost then ⟨i, j - 1, insCost⟩ else best0
  let matchCost : Int := diag.s_cost + (if diff i j then vcost j else 0)
  if matchCost < best1.s_cost then ⟨i - 1, j - 1, matchCost⟩ else best1

/-- Row 0 of `setscores` (lines 1110-1121): a running insert chain. -/
def ssRow0 (size : Nat) (tcinsl : Int) (vcost : Nat → Int) (j : Nat) (tempcost : Int)
    (m : Nat × Nat → Score) : Nat × Nat → Score :=
  if j ≤ size then
    ssRow0 size tcinsl vcost (j + 1) (tempcost + tcinsl + vcost j)
      (writeCell m 0 j ⟨0, j - 1, tempcost + tcinsl + vcost j⟩)
  else m
termination_by size + 1 - j

/-- Column 0 of `setscores` (lines 1122-1130): a running delete chain. -/
def ssCol0 (size : Nat) (tcdell : Int) (i : Nat) (tempcost : Int)
    (m : Nat × Nat → Score) : Nat × Nat → Score :=
  if i ≤ size then
    ssCol0 size tcdell (i + 1) (tempcost + tcdell)
      (writeCell m i 0 ⟨i - 1, 0, tempcost + tcdell⟩)
  else m
termination_by size + 1 - i

/-- The inner (column) loop of `setscores` for row `i`. -/
def ssInner (size : Nat) (tcinsl tcdell : Int) (vcost : Nat → Int)
    (diff : Nat → Nat → Bool) (i : Nat) (j : Nat)
    (m : Nat × Nat → Score) : Nat × Nat → Score :=
  if j ≤ size then
    ssInner size tcinsl tcdell vcost diff i (j + 1)
      (writeCell m i j
        (cellStep size tcinsl tcdell vcost diff
          (m (i - 1, j)) (m (i, j - 1)) (m (i - 1, j - 1)) i j))
  else m
termination_by size + 1 - j

/-- The outer (row) loop of `setscores`. -/
def ssOuter (size : Nat) (tcinsl tcdell : Int) (vcost : Nat → Int)
    (diff : Nat → Nat → Bool) (i : Nat) (m : Nat × Nat → Score) : Nat × Nat → Score :=
  if i ≤ size then
    ssOuter size tcinsl tcdell vcost diff (i + 1)
      (ssInner size tcinsl tcdell vcost diff i 1 m)
  else m
termination_by size + 1 - i

/-- The function `setscores` (display.c lines 1094-1167): cell [0,0], the row-0 insert
chain, the column-0 delete chain, then the main double loop.  Cells never
written keep the all-zero record. -/
def setscores (size : Nat) (tcinsl tcdell : Int) (vcost : Nat → Int)
    (diff : Nat → Nat → Bool) : Nat × Nat → Score :=
  ssOuter size tcinsl tcdell vcost diff 1
    (ssCol0 size tcdell 1 0
      (ssRow0 size tcinsl vcost 1 0
        (writeCell (fun _ => ⟨0, 0, 0⟩) 0 0 ⟨0, 0, 0⟩)))

/-- The recurrence the claim states, as a recursive reference function. -/
def cellRef (size : Nat) (tcinsl tcdell : Int) (vcost : Nat → Int)
    (diff : Nat → Nat → Bool) : Nat → Nat → Score
  | 0, 0 => ⟨0, 0, 0⟩
  | 0, j + 1 =>
      ⟨0, j, (cellRef size tcinsl tcdell vcost diff 0 j).s_cost + tcinsl + vcost (j + 1)⟩
  | i + 1, 0 =>
      ⟨i, 0, (cellRef size tcinsl tcdell vcost diff i 0).s_cost + tcdell⟩
  | i + 1, j + 1 =>
      cellStep size tcinsl tcdell vcost diff
        (cellRef size tcinsl tcdell vcost diff i (j + 1))
        (cellRef size tcinsl tcdell vcost diff (i + 1) j)
        (cellRef size tcinsl tcdell vcost diff i j)
        (i + 1) (j + 1)
termination_by i j => (i, j)

theorem ssRow0_spec (size : Nat) (tcinsl tcdell : Int) (vcost : Nat → Int)
    (diff : Nat → Nat → Bool) :
    ∀ fuel j0 t0 m, 1 ≤ j0 → size + 1 - j0 ≤ fuel →
      t0 = (cellRef size tcinsl tcdell vcost diff 0 (j0 - 1)).s_cost →
      ∀ p1 p2, ssRow0 size tcinsl vcost j0 t0 m (p1, p2) =
        if p1 = 0 ∧ j0 ≤ p2 ∧ p2 ≤ size then
          cellRef size tcinsl tcdell vcost diff 0 p2
        else m (p1, p2) := by
  intro fuel
  induction fuel with
  | zero =>
    intro j0 t0 m hj hf ht p1 p2
    rw [ssRow0, if_neg (by omega)]
    rw [if_neg (by omega)]
  | succ fuel ih =>
    intro j0 t0 m hj hf ht p1 p2
    rw [ssRow0]
    by_cases hjs : j0 ≤ size
    · rw [if_pos hjs]
      obtain ⟨j', rfl⟩ : ∃ j', j0 = j' + 1 := ⟨j0 - 1, by omega⟩
      have hwr : (⟨0, j' + 1 - 1, t0 + tcinsl + vcost (j' + 1)⟩ : Score) =
          cellRef size tcinsl tcdell vcost diff 0 (j' + 1) := by
        rw [cellRef]
        simp only [Nat.add_sub_cancel] at ht ⊢
        rw [ht]
      rw [ih (j' + 1 + 1) _ _ (by omega) (by omega)
        (by simp only [Nat.add_sub_cancel]
            rw [cellRef]
            simp only [Nat.add_sub_cancel] at ht
            rw [ht])]
      unfold writeCell
      by_cases hp : (p1, p2) = ((0 : Nat), j' + 1)
      · rw [if_pos hp]
        obtain ⟨e1, e2⟩ := Prod.mk.injEq .. ▸ hp
        rw [if_neg (by omega), if_pos (by omega)]
        subst e1
        subst e2
        exact hwr.symm ▸ hwr
      · rw [if_neg hp]
        have hne : ¬ (p1 = 0 ∧ p2 = j' + 1) := by
          intro ⟨e1, e2⟩
          exact hp (by rw [e1, e2])
        by_cases hc : p1 = 0 ∧ j' + 1 + 1 ≤ p2 ∧ p2 ≤ size
        · rw [if_pos hc, if_pos (by omega)]
        · rw [if_neg hc, if_neg (by omega)]
    · rw [if_neg hjs, if_neg (by omega)]

theorem ssCol0_spec (size : Nat) (tcinsl tcdell : Int) (vcost : Nat → Int)
    (diff : Nat → Nat → Bool) :
    ∀ fuel i0 t0 m, 1 ≤ i0 → size + 1 - i0 ≤ fuel →
      t0 = (cellRef size tcinsl tcdell vcost diff (i0 - 1) 0).s_cost →
      ∀ p1 p2, ssCol0 size tcdell i0 t0 m (p1, p2) =
        if p2 = 0 ∧ i0 ≤ p1 ∧ p1 ≤ size then
          cellRef size tcinsl tcdell vcost diff p1 0
        else m (p1, p2) := by
  intro fuel
  induction fuel with
  | zero =>
    intro i0 t0 m hi hf ht p1 p2
    rw [ssCol0, if_neg (by omega)]
    rw [if_neg (by omega)]
  | succ fuel ih =>
    intro i0 t0 m hi hf ht p1 p2
    rw [ssCol0]
    by_cases his : i0 ≤ size
    · rw [if_pos his]
      obtain ⟨i', rfl⟩ : ∃ i', i0 = i' + 1 := ⟨i0 - 1, by omega⟩
      have hwr : (⟨i' + 1 - 1, 0, t0 + tcdell⟩ : Score) =
          cellRef size tcinsl tcdell vcost diff (i' + 1) 0 := by
        rw [cellRef]
        simp only [Nat.add_sub_cancel] at ht ⊢
        rw [ht]
      rw [ih (i' + 1 + 1) _ _ (by omega) (by omega)
        (by simp only [Nat.add_sub_cancel]
            rw [cellRef]
            simp only [Nat.add_sub_cancel] at ht
            rw [ht])]
      unfold writeCell
      by_cases hp : (p1, p2) = (i' + 1, (0 : Nat))
      · rw [if_pos hp]
        obtain ⟨e1, e2⟩ := Prod.mk.injEq .. ▸ hp
        rw [if_neg (by omega), if_pos (by omega)]
        subst e1
        subst e2
        exact hwr.symm ▸ hwr
      · rw [if_neg hp]
        have hne : ¬ (p1 = i' + 1 ∧ p2 = 0) := by
          intro ⟨e1, e2⟩
          exact hp (by rw [e1, e2])
        by_cases hc : p2 = 0 ∧ i' + 1 + 1 ≤ p1 ∧ p1 ≤ size
        · rw [if_pos hc, if_pos (by omega)]
        · rw [if_neg hc, if_neg (by omega)]
    · rw [if_neg his, if_neg (by omega)]

theorem ssInner_spec (size : Nat) (tcinsl tcdell : Int) (vcost : Nat → Int)
    (diff : Nat → Nat → Bool) (i : Nat) (hi : 1 ≤ i) :
    ∀ fuel j0 m, 1 ≤ j0 → size + 1 - j0 ≤ fuel →
      (∀ j, j ≤ size → m (i - 1, j) = cellRef size tcinsl tcdell vcost diff (i - 1) j) →
      (∀ j, j < j0 → m (i, j) = cellRef size tcinsl tcdell vcost diff i j) →
      ∀ p1 p2, ssInner size tcinsl tcdell vcost diff i j0 m (p1, p2) =
        if p1 = i ∧ j0 ≤ p2 ∧ p2 ≤ size then
          cellRef size tcinsl tcdell vcost diff i p2
        else m (p1, p2) := by
  intro fuel
  induction fuel with
  | zero =>
    intro j0 m hj hf hup hpre p1 p2
    rw [ssInner, if_neg (by omega)]
    rw [if_neg (by omega)]
  | succ fuel ih =>
    intro j0 m hj hf hup hpre p1 p2
    rw [ssInner]
    by_cases hjs : j0 ≤ size
    · rw [if_pos hjs]
      obtain ⟨i', rfl⟩ : ∃ i', i = i' + 1 := ⟨i - 1, by omega⟩
      obtain ⟨j', rfl⟩ : ∃ j', j0 = j' + 1 := ⟨j0 - 1, by omega⟩
      have hread1 : m (i' + 1 - 1, j' + 1) =
          cellRef size tcinsl tcdell vcost diff i' (j' + 1) := by
        have := hup (j' + 1) hjs
        simpa using this
      have hread2 : m (i' + 1, j' + 1 - 1) =
          cellRef size tcinsl tcdell vcost diff (i' + 1) j' := by
        have := hpre j' (by omega)
        simpa using this
      have hread3 : m (i' + 1 - 1, j' + 1 - 1) =
          cellRef size tcinsl tcdell vcost diff i' j' := by
        have := hup j' (by omega)
        simpa using this
      have hwr : cellStep size tcinsl tcdell vcost diff
          (m (i' + 1 - 1, j' + 1)) (m (i' + 1, j' + 1 - 1)) (m (i' + 1 - 1, j' + 1 - 1))
          (i' + 1) (j' + 1) =
          cellRef size tcinsl tcdell vcost diff (i' + 1) (j' + 1) := by
        rw [hread1, hread2, hread3]
        rw [show cellRef size tcinsl tcdell vcost diff (i' + 1) (j' + 1) =
          cellStep size tcinsl tcdell vcost diff
            (cellRef size tcinsl tcdell vcost diff i' (j' + 1))
            (cellRef size tcinsl tcdell vcost diff (i' + 1) j')
            (cellRef size tcinsl tcdell vcost diff i' j')
            (i' + 1) (j' + 1) from by rw [cellRef]]
      rw [ih (j' + 1 + 1) _ (by omega) (by omega)
        (fun j hjle => by
          unfold writeCell
          rw [if_neg (by
            intro hcontra
            have := Prod.mk.injEq .. ▸ hcontra
            omega)]
          exact hup j hjle)
        (fun j hjlt => by
          unfold writeCell
          by_cases hje : j = j' + 1
          · subst hje
            rw [if_pos rfl]
            exact hwr
          · rw [if_neg (by
              intro hcontra
              have := Prod.mk.injEq .. ▸ hcontra
              omega)]
            exact hpre j (by omega))]
      unfold writeCell
      by_cases hp : (p1, p2) = (i' + 1, j' + 1)
      · rw [if_pos hp]
        obtain ⟨e1, e2⟩ := Prod.mk.injEq .. ▸ hp
        rw [if_neg (by omega), if_pos (by omega)]
        subst e1
        subst e2
        exact hwr
      · rw [if_neg hp]
        have hne : ¬ (p1 = i' + 1 ∧ p2 = j' + 1) := by
          intro ⟨e1, e2⟩
          exact hp (by rw [e1, e2])
        by_cases hc : p1 = i' + 1 ∧ j' + 1 + 1 ≤ p2 ∧ p2 ≤ size
        · rw [if_pos hc, if_pos (by omega)]
        · rw [if_neg hc, if_neg (by omega)]
    · rw [if_neg hjs, if_neg (by omega)]

theorem ssOuter_spec (size : Nat) (tcinsl tcdell : Int) (vcost : Nat → Int)
    (diff : Nat → Nat → Bool) :
    ∀ fuel i0 m, 1 ≤ i0 → size + 1 - i0 ≤ fuel →
      (∀ i' j, i' < i0 → j ≤ size →
        m (i', j) = cellRef size tcinsl tcdell vcost diff i' j) →
      (∀ i', i' ≤ size → m (i', 0) = cellRef size tcinsl tcdell vcost diff i' 0) →
      ∀ p1 p2, p1 ≤ size → p2 ≤ size →
        ssOuter size tcinsl tcdell vcost diff i0 m (p1, p2) =
          cellRef size tcinsl tcdell vcost diff p1 p2 := by
  intro fuel
  induction fuel with
  | zero =>
    intro i0 m hi hf hrows hcol p1 p2 hp1 hp2
    rw [ssOuter, if_neg (by omega)]
    exact hrows p1 p2 (by omega) hp2
  | succ fuel ih =>
    intro i0 m hi hf hrows hcol p1 p2 hp1 hp2
    rw [ssOuter]
    by_cases his : i0 ≤ size
    · rw [if_pos his]
      have hinner := ssInner_spec size tcinsl tcdell vcost diff i0 hi (size + 1) 1 m
        (by omega) (by omega)
        (fun j hjle => hrows (i0 - 1) j (by omega) hjle)
        (fun j hjlt => by
          have hj0 : j = 0 := by omega
          subst hj0
          exact hcol i0 his)
      refine ih (i0 + 1) _ (by omega) (by omega) ?_ ?_ p1 p2 hp1 hp2
      · intro i' j hi' hjle
        rw [hinner i' j]
        by_cases hie : i' = i0
        · subst hie
          by_cases hj1 : 1 ≤ j
          · rw [if_pos ⟨rfl, hj1, hjle⟩]
          · have hj0 : j = 0 := by omega
            subst hj0
            rw [if_neg (by omega)]
            exact hcol i' his
        · rw [if_neg (by intro h; exact hie h.1)]
          exact hrows i' j (by omega) hjle
      · intro i' hile
        rw [hinner i' 0, if_neg (by omega)]
        exact hcol i' hile
    · rw [if_neg his]
      exact hrows p1 p2 (by omega) hp2

/-- The matrix produced by the `setscores` loops coincides with the
reference recurrence on every cell of the band. -/
theorem setscores_eq_cellRef (size : Nat) (tcinsl tcdell : Int) (vcost : Nat → Int)
    (diff : Nat → Nat → Bool) (p1 p2 : Nat) (hp1 : p1 ≤ size) (hp2 : p2 ≤ size) :
    setscores size tcinsl tcdell vcost diff (p1, p2) =
      cellRef size tcinsl tcdell vcost diff p1 p2 := by
  unfold setscores
  have hbase : ∀ q1 q2 : Nat,
      writeCell (fun _ => (⟨0, 0, 0⟩ : Score)) 0 0 ⟨0, 0, 0⟩ (q1, q2) = ⟨0, 0, 0⟩ := by
    intro q1 q2
    unfold writeCell
    split_ifs <;> rfl
  have hzero : cellRef size tcinsl tcdell vcost diff 0 0 = ⟨0, 0, 0⟩ := by
    rw [cellRef]
  have hrow := ssRow0_spec size tcinsl tcdell vcost diff (size + 1) 1 0
    (writeCell (fun _ => (⟨0, 0, 0⟩ : Score)) 0 0 ⟨0, 0, 0⟩)
    (by omega) (by omega)
    (by simp only [Nat.sub_self]; rw [hzero])
  have hcol := ssCol0_spec size tcinsl tcdell vcost diff (size + 1) 1 0
    (ssRow0 size tcinsl vcost 1 0 (writeCell (fun _ => (⟨0, 0, 0⟩ : Score)) 0 0 ⟨0, 0, 0⟩))
    (by omega) (by omega)
    (by simp only [Nat.sub_self]; rw [hzero])
  refine ssOuter_spec size tcinsl tcdell vcost diff (size + 1) 1 _ (by omega) (by omega)
    ?_ ?_ p1 p2 hp1 hp2
  · intro i' j hi' hjle
    have hi0 : i' = 0 := by omega
    subst hi0
    rw [hcol 0 j, if_neg (by omega)]
    rw [hrow 0 j]
    by_cases hj1 : 1 ≤ j
    · rw [if_pos ⟨rfl, hj1, hjle⟩]
    · have hj0 : j = 0 := by omega
      subst hj0
      rw [if_neg (by omega), hbase 0 0, hzero]
  · intro i' hile
    rw [hcol i' 0]
    by_cases hi1 : 1 ≤ i'
    · rw [if_pos ⟨rfl, hi1, hile⟩]
    · have hi0 : i' = 0 := by omega
      subst hi0
      rw [if_neg (by omega)]
      rw [hrow 0 0, if_neg (by omega), hbase 0 0, hzero]

/-- C1: in the matrix built by `setscores` over a band of `size` rows,
every interior cell (i, j) with 1 ≤ i, j ≤ size is the result of the
ordered three-candidate evaluation `cellStep` ((a) delete from (i-1, j),
the delete-line cost not added in the last column; (b) insert from
(i, j-1) plus virtual row j's redraw cost, the insert-line cost not added
in the last row, replacing only if strictly cheaper; (c) match/redraw from
(i-1, j-1) plus the redraw cost only when color or hash differ, replacing
only if strictly cheaper) applied to the final values of its three
neighbour cells; row 0 is a pure insert chain and column 0 a pure delete
chain. -/
theorem setscores_dp (size : Nat) (tcinsl tcdell : Int) (vcost : Nat → Int)
    (diff : Nat → Nat → Bool) (i j : Nat)
    (hi1 : 1 ≤ i) (his : i ≤ size) (hj1 : 1 ≤ j) (hjs : j ≤ size) :
    setscores size tcinsl tcdell vcost diff (i, j) =
      cellStep size tcinsl tcdell vcost diff
        (setscores size tcinsl tcdell vcost diff (i - 1, j))
        (setscores size tcinsl tcdell vcost diff (i, j - 1))
        (setscores size tcinsl tcdell vcost diff (i - 1, j - 1)) i j ∧
    setscores size tcinsl tcdell vcost diff (0, j) =
      ⟨0, j - 1,
        (setscores size tcinsl tcdell vcost diff (0, j - 1)).s_cost + tcinsl + vcost j⟩ ∧
    setscores size tcinsl tcdell vcost diff (i, 0) =
      ⟨i - 1, 0, (setscores size tcinsl tcdell vcost diff (i - 1, 0)).s_cost + tcdell⟩ := by
  obtain ⟨i', rfl⟩ : ∃ i', i = i' + 1 := ⟨i - 1, by omega⟩
  obtain ⟨j', rfl⟩ : ∃ j', j = j' + 1 := ⟨j - 1, by omega⟩
  simp only [Nat.add_sub_cancel]
  rw [setscores_eq_cellRef size tcinsl tcdell vcost diff (i' + 1) (j' + 1) (by omega) (by omega),
    setscores_eq_cellRef size tcinsl tcdell vcost diff i' (j' + 1) (by omega) (by omega),
    setscores_eq_cellRef size tcinsl tcdell vcost diff (i' + 1) j' (by omega) (by omega),
    setscores_eq_cellRef size tcinsl tcdell vcost diff i' j' (by omega) (by omega),
    setscores_eq_cellRef size tcinsl tcdell vcost diff 0 (j' + 1) (by omega) (by omega),
    setscores_eq_cellRef size tcinsl tcdell vcost diff 0 j' (by omega) (by omega),
    setscores_eq_cellRef size tcinsl tcdell vcost diff (i' + 1) 0 (by omega) (by omega),
    setscores_eq_cellRef size tcinsl tcdell vcost diff i' 0 (by omega) (by omega)]
  refine ⟨?_, ?_, ?_⟩
  · conv_lhs => rw [cellRef]
  · conv_lhs => rw [cellRef]
  · conv_lhs => rw [cellRef]

/-- C1 witness at size 2, insert cost 3, delete cost 5, cell (1, 1). -/
theorem setscores_dp_at_2 :
    setscores 2 3 5 (fun j => (j : Int)) (fun i j => decide (i ≠ j)) (1, 1) =
      cellStep 2 3 5 (fun j => (j : Int)) (fun i j => decide (i ≠ j))
        (setscores 2 3 5 (fun j => (j : Int)) (fun i j => decide (i ≠ j)) (1 - 1, 1))
        (setscores 2 3 5 (fun j => (j : Int)) (fun i j => decide (i ≠ j)) (1, 1 - 1))
        (setscores 2 3 5 (fun j => (j : Int)) (fun i j => decide (i ≠ j)) (1 - 1, 1 - 1))
        1 1 ∧
    setscores 2 3 5 (fun j => (j : Int)) (fun i j => decide (i ≠ j)) (0, 1) =
      ⟨0, 1 - 1,
        (setscores 2 3 5 (fun j => (j : Int)) (fun i j => decide (i ≠ j)) (0, 1 - 1)).s_cost
          + 3 + (fun j => (j : Int)) 1⟩ ∧
    setscores 2 3 5 (fun j => (j : Int)) (fun i j => decide (i ≠ j)) (1, 0) =
      ⟨1 - 1, 0,
        (setscores 2 3 5 (fun j => (j : Int)) (fun i j => decide (i ≠ j)) (1 - 1, 0)).s_cost
          + 5⟩ :=
  setscores_dp 2 3 5 (fun j => (j : Int)) (fun i j => decide (i ≠ j)) 1 1
    (by norm_num) (by norm_num) (by norm_num) (by norm_num)

/-! ## Hard-update trimming and the empty-band panic
(display.c lines 707-748)

`mtch k` says whether virtual and physical row `k` agree in color and
hash (`v_color` equal and `v_hash` equal) after the up-front hashing; `n`
is `nrow - 1`.  The `uline`/`ucopy` calls inside the loops only touch the
row that has already passed the comparison, and each loop visits each row
at most once with the two loops' ranges disjoint, so the loops are
modelled by their effect on the trim bounds.  The top loop's guard is
`offs != nrow - 1`; starting from 0 and incrementing, this is `offs < n`,
here a structurally decreasing fuel `n - offs`. -/

def topTrimGo (mtch : Nat → Bool) : Nat → Nat → Nat
  | 0, offs => offs
  | r + 1, offs => if mtch offs then topTrimGo mtch r (offs + 1) else offs

/-- The top-match trim (display.c lines 712-722). -/
def topTrim (mtch : Nat → Bool) (n : Nat) : Nat := topTrimGo mtch n 0

/-- The bottom-match trim (display.c lines 728-738): `size` runs down
from `n` while `size != offs` and row `size - 1` still mtch. -/
def bottomTrim (mtch : Nat → Bool) (offs : Nat) : Nat → Nat
  | 0 => 0
  | s + 1 => if offs < s + 1 ∧ mtch s then bottomTrim mtch offs s else s + 1

/-- The guard at display.c lines 739-740:
`if ((size -= offs) == 0) panic("Illegal screen size in update");`. -/
def bandCheck (offs size : Nat) : Except String (Nat × Nat) :=
  if size - offs = 0 then Except.error "Illegal screen size in update"
  else Except.ok (offs, size - offs)

inductive HardOutcome where
  | cursorOnly
  | panicked
  | band (offs count : Nat)
  deriving Repr, DecidableEq

/-- The control flow of the hard-update prefix/suffix trimming: a full
top match returns after only moving the cursor; otherwise the band passes
through the panic guard before `setscores`/`traceback` run on it. -/
def hardUpdateTrim (mtch : Nat → Bool) (n : Nat) : HardOutcome :=
  let offs := topTrim mtch n
  if offs = n then HardOutcome.cursorOnly
  else
    match bandCheck offs (bottomTrim mtch offs n) with
    | Except.error _ => HardOutcome.panicked
    | Except.ok (o, c) => HardOutcome.band o c

/-- C9: when the band remaining after the prefix/suffix trim is empty
while a structural (hard) update was requested, the program aborts with
the "Illegal screen size in update" panic rather than continuing to the
DP matrix. -/
theorem band_zero_panics (offs size : Nat) (hz : size - offs = 0) :
    bandCheck offs size = Except.error "Illegal screen size in update" := by
  unfold bandCheck
  rw [if_pos hz]

/-- C9 witness: a band trimmed to nothing at offs = size = 3. -/
theorem band_zero_panics_at_3 :
    bandCheck 3 3 = Except.error "Illegal screen size in update" :=
  band_zero_panics 3 3 (by norm_num)

theorem topTrimGo_le (mtch : Nat → Bool) :
    ∀ r offs, topTrimGo mtch r offs ≤ offs + r := by
  intro r
  induction r with
  | zero =>
    intro offs
    simp [topTrimGo]
  | succ r ih =>
    intro offs
    rw [topTrimGo]
    split
    · have := ih (offs + 1)
      omega
    · omega

theorem topTrimGo_stops (mtch : Nat → Bool) :
    ∀ r offs, topTrimGo mtch r offs < offs + r →
      mtch (topTrimGo mtch r offs) = false := by
  intro r
  induction r with
  | zero =>
    intro offs h
    simp [topTrimGo] at h
  | succ r ih =>
    intro offs h
    rw [topTrimGo] at h ⊢
    by_cases hm : mtch offs
    · rw [if_pos hm] at h ⊢
      exact ih (offs + 1) (by omega)
    · rw [if_neg hm] at h ⊢
      exact Bool.not_eq_true _ ▸ hm

theorem topTrim_le (mtch : Nat → Bool) (n : Nat) : topTrim mtch n ≤ n := by
  have := topTrimGo_le mtch n 0
  unfold topTrim
  omega

theorem topTrim_stops (mtch : Nat → Bool) (n : Nat) (h : topTrim mtch n < n) :
    mtch (topTrim mtch n) = false := by
  have := topTrimGo_stops mtch n 0 (by unfold topTrim at h; omega)
  unfold topTrim
  exact this

theorem bottomTrim_gt (mtch : Nat → Bool) (offs : Nat)
    (hm : mtch offs = false) :
    ∀ s, offs < s → offs < bottomTrim mtch offs s := by
  intro s
  induction s with
  | zero =>
    intro h
    omega
  | succ s ih =>
    intro h
    rw [bottomTrim]
    split
    · next hc =>
      have hos : offs < s := by
        rcases Nat.lt_or_ge offs s with h1 | h1
        · exact h1
        · have : offs = s := by omega
          subst this
          rw [hm] at hc
          exact absurd hc.2 (by simp)
      exact ih hos
    · omega

/-- C10: the empty-band panic is unreachable: whenever the top trim stops
before consuming all rows it stops on a mismatching row, the bottom trim
cannot pass that row, so the band contains at least one row and
`hardUpdateTrim` never takes the panic branch. -/
theorem band_never_empty (mtch : Nat → Bool) (n : Nat)
    (hne : topTrim mtch n ≠ n) :
    topTrim mtch n < bottomTrim mtch (topTrim mtch n) n ∧
    hardUpdateTrim mtch n ≠ HardOutcome.panicked := by
  have hlt : topTrim mtch n < n := by
    have := topTrim_le mtch n
    omega
  have hstop := topTrim_stops mtch n hlt
  have hgt := bottomTrim_gt mtch (topTrim mtch n) hstop n hlt
  refine ⟨hgt, ?_⟩
  unfold hardUpdateTrim
  simp only [if_neg hne]
  unfold bandCheck
  rw [if_neg (by omega)]
  simp

/-- C10 witness: three rows, all mismatching (the band is everything). -/
theorem band_never_empty_at_3 :
    topTrim (fun _ => false) 3 < bottomTrim (fun _ => false) (topTrim (fun _ => false) 3) 3 ∧
    hardUpdateTrim (fun _ => false) 3 ≠ HardOutcome.panicked :=
  band_never_empty (fun _ => false) 3 (by decide)

/-! ## Terminal operations and window redraw flags

`TTOp` records each driver call that `update` and its helpers can emit.
The cursor-motion (`ttmove`), color-mode (`ttcolor`) and `ttflush` calls
carry no screen contents; painting output is character output, erases and
insert/delete-line. -/

def WFMOVE : Nat := 2
def WFFULL : Nat := 4
def WFEDIT : Nat := 8
/-- Selection escalation (lines 502-508): an active mark with any pending
flag forces a full redraw. -/
def escalateSelection (w : Win) : Win :=
  if w.markSet = true ∧ w.rflag ≠ 0 then { w with rflag := w.rflag ||| WFFULL } else w

/-- The single-row fast-path test (line 568):
`(w_rflag & ~WFMODE) == WFEDIT` (`~WFMODE` on a 32-bit int is
`0xFFFFFFEF`). -/
def editOnlyFast (rflag : Nat) : Bool := rflag &&& 4294967279 == WFEDIT

/-- C6: before the per-window dispatch, `update` maps `escalateSelection`
over the window list; any window with an active mark and a pending flag
comes out with the full-repaint bit set, and the escalated flag word can
never satisfy the single-row fast-path test `editOnlyFast`, so such a
window is never processed on the edit-only path. -/
theorem selection_escalation (ws : List Win) (w : Win) (hw : w ∈ ws)
    (hm : w.markSet = true) (hr : w.rflag ≠ 0) :
    escalateSelection w ∈ ws.map escalateSelection ∧
    (escalateSelection w).rflag &&& WFFULL ≠ 0 ∧
    editOnlyFast (escalateSelection w).rflag = false := by
  have hesc : (escalateSelection w).rflag = w.rflag ||| WFFULL := by
    unfold escalateSelection
    rw [if_pos ⟨hm, hr⟩]
  refine ⟨List.mem_map_of_mem escalateSelection hw, ?_, ?_⟩
  · rw [hesc]
    intro h0
    have hbit : ((w.rflag ||| WFFULL) &&& WFFULL).testBit 2 = true := by
      rw [Nat.testBit_land, Nat.testBit_lor]
      have h4 : (WFFULL).testBit 2 = true := by decide
      rw [h4]
      simp
    rw [h0, Nat.zero_testBit] at hbit
    exact Bool.false_ne_true hbit
  · rw [hesc]
    unfold editOnlyFast
    rw [beq_eq_false_iff_ne]
    intro heq
    have hbit : ((w.rflag ||| WFFULL) &&& 4294967279).testBit 2 = true := by
      rw [Nat.testBit_land, Nat.testBit_lor]
      have h4 : (WFFULL).testBit 2 = true := by decide
      have hmask : (4294967279 : Nat).testBit 2 = true := by decide
      rw [h4, hmask]
      simp
    rw [heq] at hbit
    have hed : (WFEDIT).testBit 2 = false := by decide
    rw [hed] at hbit
    exact Bool.false_ne_true hbit

/-- Concrete window for the C6 witness: mark set, edit-only flag. -/
def wpEscWitness : Win :=
  { rflag := 8, markSet := true, markline := 1, marko := 0,
    dotline := 1, doto := 2, toprow := 0, ntrows := 3, buffer := [[97]],
    topIdx := 0, dotIdx := 0, frame := 0, tabw := 8, bname := [],
    bfReadonly := false, bfChg := false, modeNames := [[102]] }

/-- C6 witness: a window with an active selection and `WFEDIT` pending. -/
theorem selection_escalation_at_edit :
    escalateSelection wpEscWitness ∈ [wpEscWitness].map escalateSelection ∧
    (escalateSelection wpEscWitness).rflag &&& WFFULL ≠ 0 ∧
    editOnlyFast (escalateSelection wpEscWitness).rflag = false :=
  selection_escalation [wpEscWitness] wpEscWitness (by simp) rfl (by decide)

/-! ### Idempotence of reconciliation (claim C7) -/

end Mg
